import Mathlib

/-!
# Verification of the libav buffer sink (`libavfilter/buffersink.c`)

A shallow embedding of the buffer-sink component: the single-slot frame
handoff (`start_frame`, `av_buffersink_read`) and the audio re-chunking
layer (`read_from_fifo`, `av_buffersink_read_samples`) together with the
teardown hook (`uninit`).

Machine integers (`int`, `int64_t`) are modelled as `Int`; none of the
arithmetic in this component is intended to overflow. Audio payload is
modelled one abstract value per sample instant (all channels together),
matching the sample-count addressing of `AVAudioFifo`. The upstream
filter graph, which the sink drives synchronously through
`ff_request_frame`, is modelled as a finite schedule of responses: each
request either delivers a frame through `start_frame`, returns a
negative status, or (erroneously) reports success without delivering.
-/

namespace BufferSink

/-- One abstract audio sample instant (all channels). -/
abbrev Sample := Int

/-- `AVRational`: an exact rational, numerator/denominator. -/
structure AVRational where
  num : Int
  den : Int
deriving Repr, DecidableEq

/-- A frame: presentation timestamp (`none` models `AV_NOPTS_VALUE`)
plus its audio payload; `data.length` models `audio->nb_samples`. -/
structure Frame where
  pts : Option Int
  data : List Sample
deriving Repr, DecidableEq

/-- `AVERROR_EOF` (`FFERRTAG('E','O','F',' ')`), a negative status. -/
def AVERROR_EOF : Int := -541478741

/-- `AVERROR(EINVAL)`. -/
def AVERROR_EINVAL : Int := -22

/-- `AVERROR(ENOMEM)`. -/
def AVERROR_ENOMEM : Int := -12

/-- Modelled from the spec: `av_rescale_q` (libavutil/mathematics.c is
not part of the excerpt). The spec fixes the conversion as exact
rational arithmetic, `a × bq` rescaled into the time base `cq`,
i.e. the integer nearest to `a * bq.num * cq.den / (bq.den * cq.num)`,
ties rounded away from zero. -/
def av_rescale_q (a : Int) (bq cq : AVRational) : Int :=
  if 0 ≤ a * bq.num * cq.den then
    (2 * (a * bq.num * cq.den) + bq.den * cq.num) / (2 * (bq.den * cq.num))
  else
    -((2 * (-(a * bq.num * cq.den)) + bq.den * cq.num) / (2 * (bq.den * cq.num)))

/-- The read-only negotiated link parameters consumed by the sink, plus
the allocation environment: `alloc_ok = false` models an allocator in
which fresh audio buffers (and the lazy FIFO) cannot be obtained. -/
structure Link where
  sample_rate : Int
  time_base : AVRational
  alloc_ok : Bool
deriving Repr, DecidableEq

/-- `BufferSinkContext` plus the link-level transient reference
`link->cur_buf`.  The audio FIFO is `none` until lazily allocated;
its contents are the queued samples in FIFO order. -/
structure SinkState where
  cur_buf : Option Frame
  link_cur_buf : Option Frame
  audio_fifo : Option (List Sample)
  next_pts : Int
deriving Repr, DecidableEq

/-- A freshly configured sink: `priv` is zero-initialised. -/
def initState : SinkState :=
  { cur_buf := none, link_cur_buf := none, audio_fifo := none, next_pts := 0 }

/-- One upstream response to `ff_request_frame`: deliver a frame via
`start_frame`, fail with status `e`, or report success without
delivering (a scheduler contract violation). -/
inductive UpstreamResp where
  | frame (f : Frame)
  | err (e : Int)
  | noDeliver
deriving Repr, DecidableEq

/-- `av_audio_fifo_size`: queued sample count (0 before allocation). -/
def fifoSize (s : SinkState) : Nat := (s.audio_fifo.getD []).length

/-- The queued samples, FIFO order (empty before allocation). -/
def fifoContents (s : SinkState) : List Sample := s.audio_fifo.getD []

/-- `start_frame` (also installed as `filter_samples`): deliver `buf`
into the pending-frame slot.  `av_assert0(!s->cur_buf)` aborting is
modelled as `none`; on success the slot is occupied and the link-level
transient reference is cleared. -/
def start_frame (s : SinkState) (buf : Frame) : Option (Int × SinkState) :=
  if s.cur_buf.isSome then none
  else some (0, { s with cur_buf := some buf, link_cur_buf := none })

/-- Modelled from the spec: `ff_request_frame` (libavfilter/internal.h,
not part of the excerpt) asks upstream to produce and deliver one unit
on the link, or returns an end-of-stream/error status.  The model
consumes the head of the upstream schedule; an exhausted schedule
answers end-of-stream.  Delivery routes through `start_frame`, with the
in-flight buffer briefly held in `link->cur_buf`. -/
def ff_request_frame (up : List UpstreamResp) (s : SinkState) :
    Option (Int × List UpstreamResp × SinkState) :=
  match up with
  | [] => some (AVERROR_EOF, [], s)
  | UpstreamResp.err e :: rest => some (e, rest, s)
  | UpstreamResp.noDeliver :: rest => some (0, rest, s)
  | UpstreamResp.frame f :: rest =>
    match start_frame { s with link_cur_buf := some f } f with
    | none => none
    | some (r, s1) => some (r, rest, s1)

/-- `av_buffersink_read` with a non-null destination: request one frame
from the graph, propagate failures, fault with `EINVAL` when the slot
stayed empty, otherwise hand the slot's frame out and clear the slot.
The returned `Option Frame` is the value written to `*buf` (`none`:
destination untouched).  `none` overall models an assertion abort. -/
def av_buffersink_read (up : List UpstreamResp) (s : SinkState) :
    Option (Int × Option Frame × List UpstreamResp × SinkState) :=
  match ff_request_frame up s with
  | none => none
  | some (ret, up1, s1) =>
    if ret < 0 then some (ret, none, up1, s1)
    else
      match s1.cur_buf with
      | none => some (AVERROR_EINVAL, none, up1, s1)
      | some b => some (0, some b, up1, { s1 with cur_buf := none })

/-- Modelled from the spec: `ff_get_audio_buffer` (libavfilter/audio.c,
not part of the excerpt) allocates a fresh writable audio frame of the
given sample capacity, or fails with out-of-memory. -/
def ff_get_audio_buffer (L : Link) (nb : Nat) : Option Frame :=
  if L.alloc_ok then some { pts := none, data := List.replicate nb 0 } else none

/-- Modelled from the spec: `av_audio_fifo_read` (libavutil/audio_fifo.c,
not part of the excerpt) removes and returns the oldest
`min nb size` samples; first component is what is written into the
destination buffer, second the remaining queue. -/
def av_audio_fifo_read (q : List Sample) (nb : Nat) : List Sample × List Sample :=
  (q.take nb, q.drop nb)

/-- `read_from_fifo`: slice `nb` samples off the front of the queue into
a fresh frame stamped with `next_pts`, then advance `next_pts` by the
time-equivalent of `nb` samples. -/
def read_from_fifo (L : Link) (s : SinkState) (nb : Nat) :
    Int × Option Frame × SinkState :=
  match ff_get_audio_buffer L nb with
  | none => (AVERROR_ENOMEM, none, s)
  | some buf0 =>
    let rd := av_audio_fifo_read (fifoContents s) nb
    let buf : Frame := { buf0 with data := rd.1, pts := some s.next_pts }
    (0, some buf,
      { s with audio_fifo := some rd.2,
               next_pts := s.next_pts +
                 av_rescale_q (nb : Int) ⟨1, L.sample_rate⟩ L.time_base })

/-- Lines 128–133: on arrival of a frame with a defined timestamp,
resynchronise `next_pts` to it minus the time-equivalent of the samples
already queued; an undefined timestamp leaves `next_pts` alone. -/
def refill_resync (L : Link) (s : SinkState) (b : Frame) : SinkState :=
  match b.pts with
  | some t =>
    { s with next_pts :=
        t - av_rescale_q (fifoSize s : Int) ⟨1, L.sample_rate⟩ L.time_base }
  | none => s

/-- Lines 135–136 (`av_audio_fifo_write`): append the frame's samples to
the back of the queue. -/
def fifo_write (s : SinkState) (data : List Sample) : SinkState :=
  { s with audio_fifo := some (s.audio_fifo.getD [] ++ data) }

/-- The `while (ret >= 0)` loop of `av_buffersink_read_samples`
(lines 116–138): serve from the queue when it is full enough, otherwise
pull one frame, handling the end-of-stream drain, error propagation,
the resynchronisation of `next_pts`, and the queue refill.  `none`
models an assertion abort (including the dead branch in which a
nonnegative pull status carries no frame, which `av_buffersink_read`
never produces).  The C loop terminates because every iteration
consumes one upstream response; the recursion is driven by the
iteration bound `fuel`, and the caller passes `up.length + 1`, which
is proved never to run out (`read_samples_loop_fuel`). -/
def read_samples_loop (L : Link) (nb : Nat) :
    Nat → List UpstreamResp → SinkState →
    Option (Int × Option Frame × List UpstreamResp × SinkState)
  | 0, _, _ => none
  | fuel + 1, up, s =>
    if nb ≤ fifoSize s then
      let r := read_from_fifo L s nb
      some (r.1, r.2.1, up, r.2.2)
    else
      match av_buffersink_read up s with
      | none => none
      | some (ret, obuf, up1, s1) =>
        if ret = AVERROR_EOF ∧ fifoSize s1 ≠ 0 then
          let r := read_from_fifo L s1 (fifoSize s1)
          some (r.1, r.2.1, up1, r.2.2)
        else if ret < 0 then
          some (ret, none, up1, s1)
        else
          match obuf with
          | none => none
          | some b =>
            read_samples_loop L nb fuel up1 (fifo_write (refill_resync L s1 b) b.data)

/-- `av_buffersink_read_samples` (lines 103–141): lazily allocate the
audio FIFO (empty, with `nb` as a capacity hint), then run the refill
loop. -/
def av_buffersink_read_samples (L : Link) (nb : Nat)
    (up : List UpstreamResp) (s : SinkState) :
    Option (Int × Option Frame × List UpstreamResp × SinkState) :=
  match s.audio_fifo with
  | some _ => read_samples_loop L nb (up.length + 1) up s
  | none =>
    if L.alloc_ok then
      read_samples_loop L nb (up.length + 1) up { s with audio_fifo := some [] }
    else some (AVERROR_ENOMEM, none, up, s)

/-- The release actions performed by a teardown call. -/
structure UninitEffect where
  freed_fifo : Bool
  freed_cur_buf : Bool
deriving Repr, DecidableEq

/-- `uninit` (lines 43–49): `if (sink->audio_fifo)
av_audio_fifo_free(sink->audio_fifo);` — the audio FIFO is released
exactly when it was allocated, and nothing else is touched (in
particular the pending-frame slot is not released). -/
def uninit (s : SinkState) : UninitEffect :=
  { freed_fifo := s.audio_fifo.isSome, freed_cur_buf := false }

/-- Test driver: call `av_buffersink_read_samples` repeatedly until it
fails, collecting the returned frames and the final status.  `fuel`
bounds the number of calls; every theorem instantiates it large enough
that it is never exhausted. -/
def drainAll (L : Link) (nb : Nat) :
    Nat → List UpstreamResp → SinkState → List Frame × Int
  | 0, _, _ => ([], 0)
  | fuel + 1, up, s =>
    match av_buffersink_read_samples L nb up s with
    | none => ([], AVERROR_EINVAL)
    | some (ret, obuf, up1, s1) =>
      if ret < 0 then ([], ret)
      else
        let r := drainAll L nb fuel up1 s1
        (obuf.toList ++ r.1, r.2)

/-- Spec-side re-chunking of a sample stream: split `l` into
consecutive chunks of `n` samples, the last chunk shorter when `n`
does not divide `l.length` (empty input, or `n = 0`, gives no chunks). -/
def chunkList (n : Nat) (l : List Sample) : List (List Sample) :=
  if n = 0 ∨ l = [] then []
  else if l.length ≤ n then [l]
  else l.take n :: chunkList n (l.drop n)
termination_by l.length
decreasing_by
  rename_i h1 h2
  simp only [List.length_drop]
  rcases not_or.mp h1 with ⟨hn, hl⟩
  have : 0 < l.length := List.length_pos.mpr hl
  omega

/-- An upstream schedule consisting only of delivered frames. -/
def framesOnly : List UpstreamResp → Bool
  | [] => true
  | UpstreamResp.frame _ :: rest => framesOnly rest
  | _ => false

/-- All samples still to be delivered by the schedule, in order. -/
def upData : List UpstreamResp → List Sample
  | [] => []
  | UpstreamResp.frame f :: rest => f.data ++ upData rest
  | _ :: rest => upData rest

/-- A schedule of frames whose timestamps are defined and contiguous in
tick units starting at `t`: each frame is stamped with `t` plus the
total sample count of the frames before it (the natural well-formed
input when the link time base is `1 / sample_rate`). -/
def stampedFrom (t : Int) : List UpstreamResp → Bool
  | [] => true
  | UpstreamResp.frame f :: rest =>
    f.pts == some t && stampedFrom (t + f.data.length) rest
  | _ => false

/-- Output timestamp chain: the first frame is stamped `t` and each
following frame is stamped its predecessor's timestamp plus the
predecessor's sample count. -/
def ptsChain (t : Int) : List Frame → Bool
  | [] => true
  | f :: rest => f.pts == some t && ptsChain (t + f.data.length) rest

/-- All timestamps defined and non-decreasing (the literal reading of
"well-formed input": non-decreasing defined input timestamps). -/
def nonDecPts : List Frame → Bool
  | [] => true
  | [f] => f.pts.isSome
  | f :: g :: rest =>
    match f.pts, g.pts with
    | some a, some b => decide (a ≤ b) && nonDecPts (g :: rest)
    | _, _ => false

/-! ## Basic arithmetic facts about the rational rescaler -/

theorem av_rescale_q_zero (bq cq : AVRational) (h : 0 < bq.den * cq.num) :
    av_rescale_q 0 bq cq = 0 := by
  simp only [av_rescale_q, zero_mul, le_refl, if_pos, mul_zero, zero_add]
  exact Int.ediv_eq_zero_of_lt (by omega) (by omega)

/-- Rescaling a nonnegative count from `1/r` into the identical time
base `1/r` is the identity: no rounding occurs. -/
theorem av_rescale_q_self_base (n r : Int) (hn : 0 ≤ n) (hr : 0 < r) :
    av_rescale_q n ⟨1, r⟩ ⟨1, r⟩ = n := by
  simp only [av_rescale_q]
  rw [if_pos (by nlinarith)]
  have h1 : 2 * (n * 1 * r) + r * 1 = r * (2 * n + 1) := by ring
  have h2 : 2 * (r * 1) = r * 2 := by ring
  rw [h1, h2, Int.mul_ediv_mul_of_pos _ _ hr]
  omega

/-- The rescaler rounds to the nearest multiple: twice the exact
numerator differs from twice the result times the denominator by at
most the denominator. -/
theorem av_rescale_q_near (a : Int) (bq cq : AVRational)
    (hnum : 0 ≤ a * bq.num * cq.den) (hden : 0 < bq.den * cq.num) :
    |2 * (a * bq.num * cq.den) - 2 * (bq.den * cq.num) * av_rescale_q a bq cq|
      ≤ bq.den * cq.num := by
  simp only [av_rescale_q, if_pos hnum]
  have h1 := Int.ediv_add_emod (2 * (a * bq.num * cq.den) + bq.den * cq.num)
    (2 * (bq.den * cq.num))
  have h2 : 0 ≤ (2 * (a * bq.num * cq.den) + bq.den * cq.num) % (2 * (bq.den * cq.num)) :=
    Int.emod_nonneg _ (by omega)
  have h3 : (2 * (a * bq.num * cq.den) + bq.den * cq.num) % (2 * (bq.den * cq.num))
      < 2 * (bq.den * cq.num) := Int.emod_lt_of_pos _ (by omega)
  rw [abs_le]
  constructor <;> linarith

/-! ## The single-slot handoff and the pull operation -/

theorem av_buffersink_read_nil (s : SinkState) :
    av_buffersink_read [] s = some (AVERROR_EOF, none, [], s) := by
  simp [av_buffersink_read, ff_request_frame, AVERROR_EOF]

theorem av_buffersink_read_err (s : SinkState) (e : Int) (rest : List UpstreamResp)
    (he : e < 0) :
    av_buffersink_read (UpstreamResp.err e :: rest) s = some (e, none, rest, s) := by
  simp [av_buffersink_read, ff_request_frame, he]

theorem av_buffersink_read_noDeliver (s : SinkState) (rest : List UpstreamResp)
    (hc : s.cur_buf = none) :
    av_buffersink_read (UpstreamResp.noDeliver :: rest) s
      = some (AVERROR_EINVAL, none, rest, s) := by
  simp [av_buffersink_read, ff_request_frame, hc]

theorem av_buffersink_read_frame (s : SinkState) (f : Frame) (rest : List UpstreamResp)
    (hc : s.cur_buf = none) :
    av_buffersink_read (UpstreamResp.frame f :: rest) s
      = some (0, some f, rest, { s with cur_buf := none, link_cur_buf := none }) := by
  simp [av_buffersink_read, ff_request_frame, start_frame, hc]

/-- The pull operation never touches the audio FIFO or the timestamp
cursor. -/
theorem av_buffersink_read_preserves_fifo (up : List UpstreamResp) (s : SinkState)
    (ret : Int) (ob : Option Frame) (up1 : List UpstreamResp) (s1 : SinkState)
    (h : av_buffersink_read up s = some (ret, ob, up1, s1)) :
    s1.audio_fifo = s.audio_fifo ∧ s1.next_pts = s.next_pts := by
  cases up with
  | nil =>
    rw [av_buffersink_read_nil] at h
    obtain ⟨-, -, -, rfl⟩ := Prod.mk.injEq .. ▸ (Option.some.injEq .. ▸ h :)
    exact ⟨rfl, rfl⟩
  | cons r rest =>
    cases r with
    | frame f =>
      simp only [av_buffersink_read, ff_request_frame, start_frame] at h
      by_cases hc : s.cur_buf.isSome
      · rw [if_pos hc] at h; exact absurd h (by simp)
      · rw [if_neg hc] at h
        simp only at h
        rw [if_neg (by decide : ¬ (0 : Int) < 0)] at h
        simp only [Option.some.injEq, Prod.mk.injEq] at h
        rw [← h.2.2.2]
        exact ⟨rfl, rfl⟩
    | err e =>
      simp only [av_buffersink_read, ff_request_frame] at h
      by_cases he : e < 0
      · rw [if_pos he] at h
        simp only [Option.some.injEq, Prod.mk.injEq] at h
        rw [← h.2.2.2]; exact ⟨rfl, rfl⟩
      · rw [if_neg he] at h
        cases hcb : s.cur_buf with
        | none =>
          rw [hcb] at h; simp only [Option.some.injEq, Prod.mk.injEq] at h
          rw [← h.2.2.2]; exact ⟨rfl, rfl⟩
        | some b =>
          rw [hcb] at h; simp only [Option.some.injEq, Prod.mk.injEq] at h
          rw [← h.2.2.2]; exact ⟨rfl, rfl⟩
    | noDeliver =>
      simp only [av_buffersink_read, ff_request_frame] at h
      rw [if_neg (by decide : ¬ (0 : Int) < 0)] at h
      cases hcb : s.cur_buf with
      | none =>
        rw [hcb] at h; simp only [Option.some.injEq, Prod.mk.injEq] at h
        rw [← h.2.2.2]; exact ⟨rfl, rfl⟩
      | some b =>
        rw [hcb] at h; simp only [Option.some.injEq, Prod.mk.injEq] at h
        rw [← h.2.2.2]; exact ⟨rfl, rfl⟩

/-- Every outcome of a pull: an assertion abort, a failure returning
the state untouched, or a delivered frame with the FIFO and the
timestamp cursor untouched. -/
theorem av_buffersink_read_trichotomy (up : List UpstreamResp) (s : SinkState) :
    av_buffersink_read up s = none ∨
    (∃ ret up1, ret < 0 ∧ av_buffersink_read up s = some (ret, none, up1, s)) ∨
    (∃ b up1 s1, av_buffersink_read up s = some (0, some b, up1, s1) ∧
      s1.audio_fifo = s.audio_fifo ∧ s1.next_pts = s.next_pts) := by
  cases up with
  | nil =>
    right; left
    exact ⟨AVERROR_EOF, [], by decide, av_buffersink_read_nil s⟩
  | cons r rest =>
    cases r with
    | frame f =>
      cases hc : s.cur_buf with
      | none =>
        right; right
        exact ⟨f, rest, { s with cur_buf := none, link_cur_buf := none },
          av_buffersink_read_frame s f rest hc, rfl, rfl⟩
      | some b =>
        left
        simp [av_buffersink_read, ff_request_frame, start_frame, hc]
    | err e =>
      by_cases he : e < 0
      · right; left
        exact ⟨e, rest, he, av_buffersink_read_err s e rest he⟩
      · cases hc : s.cur_buf with
        | none =>
          right; left
          refine ⟨AVERROR_EINVAL, rest, by decide, ?_⟩
          simp [av_buffersink_read, ff_request_frame, hc, he]
        | some b =>
          right; right
          refine ⟨b, rest, { s with cur_buf := none }, ?_, rfl, rfl⟩
          simp [av_buffersink_read, ff_request_frame, hc, he]
    | noDeliver =>
      cases hc : s.cur_buf with
      | none =>
        right; left
        exact ⟨AVERROR_EINVAL, rest, by decide, av_buffersink_read_noDeliver s rest hc⟩
      | some b =>
        right; right
        refine ⟨b, rest, { s with cur_buf := none }, ?_, rfl, rfl⟩
        simp [av_buffersink_read, ff_request_frame, hc]

/-- A drain either succeeds (status 0, queue loses its first `nb`
samples) or fails with out-of-memory leaving the state untouched. -/
theorem read_from_fifo_queue (L : Link) (s : SinkState) (nb : Nat) :
    (read_from_fifo L s nb).1 = 0 ∧
      fifoContents (read_from_fifo L s nb).2.2 = (fifoContents s).drop nb ∨
    (read_from_fifo L s nb).1 = AVERROR_ENOMEM ∧ (read_from_fifo L s nb).2.2 = s := by
  cases hL : L.alloc_ok
  · right; simp [read_from_fifo, ff_get_audio_buffer, hL]
  · left; simp [read_from_fifo, ff_get_audio_buffer, hL, av_audio_fifo_read, fifoContents]

/-- Through any number of loop iterations, a failing exit leaves the
samples that were queued on entry at the front of the queue, in order
(anything pulled meanwhile is appended after them). -/
theorem read_samples_loop_preserves_queue (L : Link) (nb : Nat) :
    ∀ (fuel : Nat) (up : List UpstreamResp) (s : SinkState) (ret : Int)
      (ob : Option Frame) (up1 : List UpstreamResp) (s1 : SinkState),
      read_samples_loop L nb fuel up s = some (ret, ob, up1, s1) → ret < 0 →
      ∃ t, fifoContents s1 = fifoContents s ++ t := by
  intro fuel
  induction fuel with
  | zero =>
    intro up s ret ob up1 s1 h
    simp [read_samples_loop] at h
  | succ fuel ih =>
    intro up s ret ob up1 s1 h hret
    rw [read_samples_loop] at h
    by_cases hfull : nb ≤ fifoSize s
    · rw [if_pos hfull] at h
      simp only [Option.some.injEq, Prod.mk.injEq] at h
      obtain ⟨h1, -, -, h4⟩ := h
      rcases read_from_fifo_queue L s nb with ⟨hz, -⟩ | ⟨-, hs⟩
      · rw [← h1, hz] at hret; exact absurd hret (by decide)
      · exact ⟨[], by rw [← h4, hs, List.append_nil]⟩
    · rw [if_neg hfull] at h
      rcases av_buffersink_read_trichotomy up s with hn | ⟨r0, u0, hr0, he⟩ |
        ⟨b, u0, s0, he, hfi, -⟩
      · rw [hn] at h; exact absurd h (by simp)
      · rw [he] at h
        dsimp only at h
        by_cases hc : r0 = AVERROR_EOF ∧ fifoSize s ≠ 0
        · rw [if_pos hc] at h
          simp only [Option.some.injEq, Prod.mk.injEq] at h
          obtain ⟨h1, -, -, h4⟩ := h
          rcases read_from_fifo_queue L s (fifoSize s) with ⟨hz, -⟩ | ⟨-, hs⟩
          · rw [← h1, hz] at hret; exact absurd hret (by decide)
          · exact ⟨[], by rw [← h4, hs, List.append_nil]⟩
        · rw [if_neg hc, if_pos hr0] at h
          simp only [Option.some.injEq, Prod.mk.injEq] at h
          obtain ⟨-, -, -, h4⟩ := h
          exact ⟨[], by rw [← h4, List.append_nil]⟩
      · rw [he] at h
        dsimp only at h
        have hc : ¬ ((0 : Int) = AVERROR_EOF ∧ fifoSize s0 ≠ 0) := by
          rintro ⟨h0, -⟩; exact absurd h0 (by decide)
        rw [if_neg hc, if_neg (by decide : ¬ (0 : Int) < 0)] at h
        obtain ⟨t, ht⟩ := ih _ _ _ _ _ _ h hret
        refine ⟨b.data ++ t, ?_⟩
        rw [ht]
        have : fifoContents (fifo_write (refill_resync L s0 b) b.data)
            = fifoContents s ++ b.data := by
          cases hp : b.pts <;>
            simp [fifo_write, refill_resync, fifoContents, hp, hfi]
        rw [this, List.append_assoc]

/-- With allocation succeeding, `av_buffersink_read_samples` is the
refill loop started on a state whose FIFO holds the current contents
(lazily allocated empty on first use). -/
theorem read_samples_start_loop (L : Link) (nb : Nat) (up : List UpstreamResp)
    (s : SinkState) (hA : L.alloc_ok = true) :
    av_buffersink_read_samples L nb up s
      = read_samples_loop L nb (up.length + 1) up
          { s with audio_fifo := some (fifoContents s) } := by
  rcases s with ⟨cb, lcb, af, np⟩
  cases af with
  | none => simp [av_buffersink_read_samples, fifoContents, hA]
  | some q => simp [av_buffersink_read_samples, fifoContents]

/-- C9: delivering into an empty pending-frame slot passes the
assertion, occupies the slot with the delivered frame, clears the
link-level transient reference and returns success; delivering into an
occupied slot is caught by the assertion (modelled `none`) instead of
silently overwriting the slot. -/
theorem start_frame_single_slot (s : SinkState) (b : Frame) :
    (s.cur_buf = none →
      start_frame s b
        = some (0, { s with cur_buf := some b, link_cur_buf := none })) ∧
    (s.cur_buf.isSome → start_frame s b = none) := by
  constructor
  · intro h; simp [start_frame, h]
  · intro h; simp [start_frame, h]

theorem start_frame_single_slot_witness :
    start_frame initState ⟨some 7, [1, 2]⟩
      = some (0, ⟨some ⟨some 7, [1, 2]⟩, none, none, 0⟩) ∧
    start_frame ⟨some ⟨none, [3]⟩, none, none, 0⟩ ⟨some 7, [1, 2]⟩ = none :=
  ⟨(start_frame_single_slot initState ⟨some 7, [1, 2]⟩).1 rfl,
   (start_frame_single_slot ⟨some ⟨none, [3]⟩, none, none, 0⟩
      ⟨some 7, [1, 2]⟩).2 rfl⟩

/-- C2: a pull propagates a negative `request_frame` status unchanged
without writing the destination; a successful request that left the
slot empty is the invalid-state error; otherwise the pull succeeds,
hands the slot's frame to the caller and clears the slot. -/
theorem av_buffersink_read_pull_contract (s : SinkState) (rest : List UpstreamResp) :
    (∀ e : Int, e < 0 →
      av_buffersink_read (UpstreamResp.err e :: rest) s = some (e, none, rest, s)) ∧
    (s.cur_buf = none →
      av_buffersink_read (UpstreamResp.noDeliver :: rest) s
        = some (AVERROR_EINVAL, none, rest, s)) ∧
    (∀ f : Frame, s.cur_buf = none →
      av_buffersink_read (UpstreamResp.frame f :: rest) s
        = some (0, some f, rest, { s with cur_buf := none, link_cur_buf := none })) :=
  ⟨fun e he => av_buffersink_read_err s e rest he,
   fun hc => av_buffersink_read_noDeliver s rest hc,
   fun f hc => av_buffersink_read_frame s f rest hc⟩

theorem av_buffersink_read_pull_contract_witness :
    av_buffersink_read [UpstreamResp.err (-9)] initState
      = some (-9, none, [], initState) ∧
    av_buffersink_read [UpstreamResp.noDeliver] initState
      = some (AVERROR_EINVAL, none, [], initState) ∧
    av_buffersink_read [UpstreamResp.frame ⟨some 4, [5]⟩] initState
      = some (0, some ⟨some 4, [5]⟩, [],
          { initState with cur_buf := none, link_cur_buf := none }) :=
  ⟨(av_buffersink_read_pull_contract initState []).1 (-9) (by decide),
   (av_buffersink_read_pull_contract initState []).2.1 rfl,
   (av_buffersink_read_pull_contract initState []).2.2 ⟨some 4, [5]⟩ rfl⟩

/-- C4: in a refill step, a pulled frame with a defined timestamp
resynchronises `next_pts` to that timestamp minus the rescaled queue
size measured before its samples are appended; an undefined timestamp
leaves `next_pts` unchanged through the step. -/
theorem refill_resync_rule (L : Link) (s : SinkState) (b : Frame) :
    (∀ t : Int, b.pts = some t →
      (fifo_write (refill_resync L s b) b.data).next_pts
        = t - av_rescale_q (fifoSize s : Int) ⟨1, L.sample_rate⟩ L.time_base) ∧
    (b.pts = none →
      (fifo_write (refill_resync L s b) b.data).next_pts = s.next_pts) := by
  constructor
  · intro t ht; simp [fifo_write, refill_resync, ht]
  · intro ht; simp [fifo_write, refill_resync, ht]

theorem refill_resync_rule_witness :
    (fifo_write (refill_resync ⟨10, ⟨1, 10⟩, true⟩
        { initState with audio_fifo := some [1, 2, 3] } ⟨some 50, [4, 5]⟩) [4, 5]).next_pts
      = 50 - av_rescale_q 3 ⟨1, 10⟩ ⟨1, 10⟩ ∧
    (fifo_write (refill_resync ⟨10, ⟨1, 10⟩, true⟩
        { initState with audio_fifo := some [1, 2, 3], next_pts := 8 }
        ⟨none, [4, 5]⟩) [4, 5]).next_pts = 8 :=
  ⟨(refill_resync_rule ⟨10, ⟨1, 10⟩, true⟩
      { initState with audio_fifo := some [1, 2, 3] } ⟨some 50, [4, 5]⟩).1 50 rfl,
   (refill_resync_rule ⟨10, ⟨1, 10⟩, true⟩
      { initState with audio_fifo := some [1, 2, 3], next_pts := 8 }
      ⟨none, [4, 5]⟩).2 rfl⟩

/-- C5 (code bug): teardown releases the audio FIFO exactly when it was
allocated and does not fail, but it does **not** release a
still-occupied pending-frame slot — `uninit` only frees
`sink->audio_fifo` and never touches `sink->cur_buf`, so the frame
left in the slot leaks, contrary to the spec's teardown contract. -/
theorem uninit_releases_only_fifo :
    uninit { cur_buf := some ⟨some 3, [7]⟩, link_cur_buf := none,
             audio_fifo := some [1, 2], next_pts := 5 }
      = { freed_fifo := true, freed_cur_buf := false } ∧
    uninit { cur_buf := some ⟨some 3, [7]⟩, link_cur_buf := none,
             audio_fifo := none, next_pts := 5 }
      = { freed_fifo := false, freed_cur_buf := false } ∧
    uninit initState = { freed_fifo := false, freed_cur_buf := false } := by
  exact ⟨rfl, rfl, rfl⟩

/-- C6: a drain from the queue stamps the output frame with the current
`next_pts` and advances `next_pts` by exactly
`av_rescale_q nb (1/sample_rate) time_base`, an exact integer rational
rescaling that rounds to the nearest representable tick. -/
theorem read_from_fifo_pts_advance (L : Link) (s : SinkState) (nb : Nat)
    (hA : L.alloc_ok = true) (hnum : 0 < L.time_base.num)
    (hden : 0 < L.time_base.den) (hr : 0 < L.sample_rate) :
    ∃ f s1, read_from_fifo L s nb = (0, some f, s1) ∧
      f.pts = some s.next_pts ∧
      s1.next_pts
        = s.next_pts + av_rescale_q (nb : Int) ⟨1, L.sample_rate⟩ L.time_base ∧
      |2 * ((nb : Int) * 1 * L.time_base.den)
          - 2 * (L.sample_rate * L.time_base.num) * (s1.next_pts - s.next_pts)|
        ≤ L.sample_rate * L.time_base.num := by
  have hx : read_from_fifo L s nb
      = (0, some { pts := some s.next_pts, data := (fifoContents s).take nb },
         { s with audio_fifo := some ((fifoContents s).drop nb),
                  next_pts := s.next_pts
                    + av_rescale_q (nb : Int) ⟨1, L.sample_rate⟩ L.time_base }) := by
    simp [read_from_fifo, ff_get_audio_buffer, hA, av_audio_fifo_read]
  refine ⟨_, _, hx, rfl, rfl, ?_⟩
  simp only [add_sub_cancel_left]
  exact av_rescale_q_near (nb : Int) ⟨1, L.sample_rate⟩ L.time_base
    (by positivity) (by positivity)

/-- C10: a `read_samples` request for 0 samples (when allocation
succeeds) returns immediately with a zero-sample frame stamped with the
current `next_pts`, pulling nothing from upstream and leaving both
`next_pts` and the queue contents unchanged. -/
theorem read_samples_zero_request (L : Link) (up : List UpstreamResp) (s : SinkState)
    (hA : L.alloc_ok = true) (hpos : 0 < L.sample_rate * L.time_base.num) :
    av_buffersink_read_samples L 0 up s
      = some (0, some { pts := some s.next_pts, data := [] }, up,
          { s with audio_fifo := some (fifoContents s) }) := by
  rw [read_samples_start_loop L 0 up s hA]
  simp [read_samples_loop, read_from_fifo, ff_get_audio_buffer, hA,
        av_audio_fifo_read, fifoContents, av_rescale_q_zero ⟨1, L.sample_rate⟩
          L.time_base (by simpa using hpos)]

theorem read_samples_zero_request_witness :
    av_buffersink_read_samples ⟨48000, ⟨1, 48000⟩, true⟩ 0
        [UpstreamResp.err (-5)] ⟨none, none, some [3, 4], 9⟩
      = some (0, some { pts := some 9, data := [] }, [UpstreamResp.err (-5)],
          ⟨none, none, some [3, 4], 9⟩) :=
  read_samples_zero_request ⟨48000, ⟨1, 48000⟩, true⟩ [UpstreamResp.err (-5)]
    ⟨none, none, some [3, 4], 9⟩ rfl (by decide)

/-- C3: when the pull hits end-of-stream, a non-empty queue is drained
completely into one final short frame stamped with the current
`next_pts` (advancing `next_pts` by the usual rule), while an empty
queue propagates the end-of-stream status itself — no zero-sample
frame is ever produced. -/
theorem read_samples_eof_drain (L : Link) (N : Nat) (rest : List UpstreamResp)
    (s : SinkState) (q : List Sample) (hf : s.audio_fifo = some q)
    (hlt : q.length < N) (hA : L.alloc_ok = true) :
    (q ≠ [] →
      av_buffersink_read_samples L N (UpstreamResp.err AVERROR_EOF :: rest) s
        = some (0, some { pts := some s.next_pts, data := q }, rest,
            { s with audio_fifo := some ([] : List Sample),
                     next_pts := s.next_pts
                       + av_rescale_q (q.length : Int) ⟨1, L.sample_rate⟩
                           L.time_base })) ∧
    (q = [] →
      av_buffersink_read_samples L N (UpstreamResp.err AVERROR_EOF :: rest) s
        = some (AVERROR_EOF, none, rest, s)) := by
  have hcont : fifoContents s = q := by simp [fifoContents, hf]
  have hstep := read_samples_start_loop L N (UpstreamResp.err AVERROR_EOF :: rest) s hA
  rw [hcont] at hstep
  have hsq : { s with audio_fifo := some q } = s := by
    rcases s with ⟨cb, lcb, af, np⟩
    simp only at hf
    rw [hf]
  rw [hsq] at hstep
  have h1 : ¬ N ≤ q.length := by omega
  have h3 : AVERROR_EOF < (0 : Int) := by decide
  constructor
  · intro hq
    have h2 : fifoSize s ≠ 0 := by
      simp [fifoSize, hf, List.length_eq_zero, hq]
    rw [hstep, read_samples_loop,
        av_buffersink_read_err s AVERROR_EOF rest h3]
    simp [h1, h2, hq, read_from_fifo, ff_get_audio_buffer, hA, av_audio_fifo_read,
          fifoContents, hf, fifoSize]
  · intro hq
    have h0 : ¬ N = 0 := by omega
    have h2 : fifoSize s = 0 := by simp [fifoSize, hf, hq]
    rw [hstep, read_samples_loop,
        av_buffersink_read_err s AVERROR_EOF rest h3]
    simp [h0, h1, h2, h3, hq]

theorem read_samples_eof_drain_witness :
    (av_buffersink_read_samples ⟨10, ⟨1, 10⟩, true⟩ 8
        [UpstreamResp.err AVERROR_EOF] ⟨none, none, some [1, 2, 3], 20⟩
      = some (0, some { pts := some 20, data := [1, 2, 3] }, [],
          ⟨none, none, some [], 20 + av_rescale_q 3 ⟨1, 10⟩ ⟨1, 10⟩⟩)) ∧
    (av_buffersink_read_samples ⟨10, ⟨1, 10⟩, true⟩ 8
        [UpstreamResp.err AVERROR_EOF] ⟨none, none, some [], 20⟩
      = some (AVERROR_EOF, none, [], ⟨none, none, some [], 20⟩)) :=
  ⟨(read_samples_eof_drain ⟨10, ⟨1, 10⟩, true⟩ 8 [] ⟨none, none, some [1, 2, 3], 20⟩
      [1, 2, 3] rfl (by decide) rfl).1 (by decide),
   (read_samples_eof_drain ⟨10, ⟨1, 10⟩, true⟩ 8 [] ⟨none, none, some [], 20⟩
      [] rfl (by decide) rfl).2 rfl⟩

/-! ## Spec-side chunking facts -/

theorem chunkList_nil (n : Nat) : chunkList n [] = [] := by
  rw [chunkList]; simp

theorem chunkList_cons (n : Nat) (l : List Sample) (hn : n ≠ 0) (hl : l ≠ []) :
    chunkList n l = l.take n :: chunkList n (l.drop n) := by
  rw [chunkList, if_neg (by simp [hn, hl])]
  by_cases hle : l.length ≤ n
  · rw [if_pos hle, List.take_of_length_le hle, List.drop_eq_nil_of_le hle,
        chunkList_nil]
  · rw [if_neg hle]

theorem chunkList_flatten (n : Nat) (hn : n ≠ 0) (l : List Sample) :
    (chunkList n l).flatten = l := by
  by_cases hl : l = []
  · subst hl; rw [chunkList_nil]; rfl
  · rw [chunkList_cons n l hn hl, List.flatten_cons,
        chunkList_flatten n hn (l.drop n), List.take_append_drop]
termination_by l.length
decreasing_by
  simp only [List.length_drop]
  have := List.length_pos.mpr hl
  omega

theorem chunkList_length (n : Nat) (hn : n ≠ 0) (l : List Sample) :
    (chunkList n l).length = l.length / n + (if l.length % n = 0 then 0 else 1) := by
  by_cases hl : l = []
  · subst hl; rw [chunkList_nil]; simp
  · rw [chunkList_cons n l hn hl, List.length_cons,
        chunkList_length n hn (l.drop n), List.length_drop]
    rcases Nat.lt_or_ge l.length n with hlt | hge
    · have h2 : l.length - n = 0 := by omega
      have h3 : l.length / n = 0 := Nat.div_eq_of_lt hlt
      have h4 : l.length % n = l.length := Nat.mod_eq_of_lt hlt
      have h5 : l.length ≠ 0 := fun hc => hl (List.length_eq_zero.mp hc)
      simp [h2, h3, h4, h5, Nat.pos_of_ne_zero hn]
    · rw [Nat.div_eq_sub_div (Nat.pos_of_ne_zero hn) hge, Nat.mod_eq_sub_mod hge]
      by_cases hm : (l.length - n) % n = 0 <;> simp [hm]
termination_by l.length
decreasing_by
  simp only [List.length_drop]
  have := List.length_pos.mpr hl
  omega

theorem chunkList_full_sizes (n : Nat) (hn : n ≠ 0) (l : List Sample) :
    ∀ c ∈ (chunkList n l).take (l.length / n), c.length = n := by
  by_cases hl : l = []
  · subst hl; rw [chunkList_nil]; simp
  · rw [chunkList_cons n l hn hl]
    rcases Nat.lt_or_ge l.length n with hlt | hge
    · have h3 : l.length / n = 0 := Nat.div_eq_of_lt hlt
      simp [h3]
    · obtain ⟨k, hk⟩ : ∃ k, l.length / n = k + 1 :=
        ⟨l.length / n - 1, by
          have := Nat.div_pos hge (Nat.pos_of_ne_zero hn); omega⟩
      rw [hk, List.take_succ_cons]
      intro c hc
      rcases List.mem_cons.mp hc with rfl | hc
      · rw [List.length_take]
        omega
      · have hkd : (l.drop n).length / n = k := by
          rw [List.length_drop]
          rw [Nat.div_eq_sub_div (Nat.pos_of_ne_zero hn) hge] at hk
          omega
        exact chunkList_full_sizes n hn (l.drop n) c (by rw [hkd]; exact hc)
termination_by l.length
decreasing_by
  simp only [List.length_drop]
  have := List.length_pos.mpr hl
  omega

theorem chunkList_ne_nil (n : Nat) (hn : n ≠ 0) (l : List Sample) (hl : l ≠ []) :
    chunkList n l ≠ [] := by
  rw [chunkList_cons n l hn hl]; simp

theorem chunkList_last (n : Nat) (hn : n ≠ 0) (l : List Sample) (hl : l ≠ []) :
    ∃ c, (chunkList n l).getLast? = some c ∧
      c.length = if l.length % n = 0 then n else l.length % n := by
  rw [chunkList_cons n l hn hl]
  rcases Nat.lt_or_ge l.length n with hlt | hge
  · have hd : l.drop n = [] := List.drop_eq_nil_of_le (le_of_lt hlt)
    rw [hd, chunkList_nil]
    refine ⟨l.take n, rfl, ?_⟩
    rw [List.take_of_length_le (le_of_lt hlt)]
    have h4 : l.length % n = l.length := Nat.mod_eq_of_lt hlt
    have h5 : l.length ≠ 0 := fun hc => hl (List.length_eq_zero.mp hc)
    simp [h4, h5]
  · rcases Nat.eq_or_lt_of_le hge with heq | hgt
    · have hd : l.drop n = [] := List.drop_eq_nil_of_le (le_of_eq heq.symm)
      rw [hd, chunkList_nil]
      refine ⟨l.take n, rfl, ?_⟩
      rw [List.length_take]
      have hm : l.length % n = 0 := by
        rw [← heq]; exact Nat.mod_self _
      simp [hm]
      omega
    · have hd : l.drop n ≠ [] := by
        intro hc
        have := List.length_drop n l
        rw [hc] at this
        simp at this
        omega
      obtain ⟨c, hc1, hc2⟩ := chunkList_last n hn (l.drop n) hd
      obtain ⟨c0, rest0, hrest⟩ : ∃ c0 rest0, chunkList n (l.drop n) = c0 :: rest0 := by
        rcases hx : chunkList n (l.drop n) with _ | ⟨c0, rest0⟩
        · exact absurd hx (chunkList_ne_nil n hn (l.drop n) hd)
        · exact ⟨c0, rest0, rfl⟩
      refine ⟨c, ?_, ?_⟩
      · rw [hrest, List.getLast?_cons_cons, ← hrest]
        exact hc1
      · rw [hc2, List.length_drop, Nat.mod_eq_sub_mod hge]
termination_by l.length
decreasing_by
  simp only [List.length_drop]
  have := List.length_pos.mpr hl
  omega

/-- Closed form of a successful drain. -/
theorem read_from_fifo_eq (L : Link) (s : SinkState) (nb : Nat)
    (hA : L.alloc_ok = true) :
    read_from_fifo L s nb
      = (0, some { pts := some s.next_pts, data := (fifoContents s).take nb },
         { s with audio_fifo := some ((fifoContents s).drop nb),
                  next_pts := s.next_pts
                    + av_rescale_q (nb : Int) ⟨1, L.sample_rate⟩ L.time_base }) := by
  simp [read_from_fifo, ff_get_audio_buffer, hA, av_audio_fifo_read]

/-- State bookkeeping for one refill append. -/
theorem fifo_write_fields (L : Link) (s : SinkState) (b : Frame) :
    (fifo_write (refill_resync L s b) b.data).audio_fifo
        = some (fifoContents s ++ b.data) ∧
    (fifo_write (refill_resync L s b) b.data).cur_buf = s.cur_buf := by
  cases hp : b.pts <;> simp [fifo_write, refill_resync, fifoContents, hp]

/-- In a frames-only schedule with the queue allocated, the refill loop
returns exactly the first `nb` pending samples (all of them, fewer than
`nb`, on the final end-of-stream drain), leaving the rest pending, or
end-of-stream when nothing is pending. -/
theorem read_samples_loop_frames (L : Link) (nb : Nat) (hA : L.alloc_ok = true)
    (hnb : 0 < nb) :
    ∀ (up : List UpstreamResp) (fuel : Nat) (q : List Sample) (s : SinkState),
      up.length < fuel → framesOnly up = true → s.audio_fifo = some q →
      s.cur_buf = none →
      (q ++ upData up = [] →
        ∃ s1, read_samples_loop L nb fuel up s = some (AVERROR_EOF, none, [], s1) ∧
          s1.audio_fifo = some ([] : List Sample) ∧ s1.cur_buf = none) ∧
      (q ++ upData up ≠ [] →
        ∃ p up1 q1 s1,
          read_samples_loop L nb fuel up s
            = some (0, some { pts := some p, data := (q ++ upData up).take nb },
                up1, s1) ∧
          framesOnly up1 = true ∧ s1.audio_fifo = some q1 ∧ s1.cur_buf = none ∧
          q1 ++ upData up1 = (q ++ upData up).drop nb) := by
  intro up
  induction up with
  | nil =>
    intro fuel q s hfuel hfo hfifo hcur
    obtain ⟨f, rfl⟩ : ∃ f, fuel = f + 1 := ⟨fuel - 1, by omega⟩
    have hsize : fifoSize s = q.length := by simp [fifoSize, hfifo]
    have hc : fifoContents s = q := by simp [fifoContents, hfifo]
    simp only [upData, List.append_nil]
    constructor
    · rintro rfl
      rw [read_samples_loop, if_neg (by rw [hsize]; simpa using hnb.ne'),
          av_buffersink_read_nil s]
      dsimp only
      rw [if_neg (by rintro ⟨-, hx⟩; exact hx (by rw [hsize]; rfl)),
          if_pos (by decide : AVERROR_EOF < (0 : Int))]
      exact ⟨s, rfl, hfifo, hcur⟩
    · intro hq
      by_cases hfull : nb ≤ q.length
      · rw [read_samples_loop, if_pos (by rw [hsize]; exact hfull),
            read_from_fifo_eq L s nb hA]
        dsimp only
        rw [hc]
        exact ⟨s.next_pts, [], q.drop nb, _, rfl, rfl, rfl, hcur, by
          simp [upData]⟩
      · rw [read_samples_loop, if_neg (by rw [hsize]; exact hfull),
            av_buffersink_read_nil s]
        dsimp only
        rw [if_pos ⟨rfl, by rw [hsize]; simpa [List.length_eq_zero] using hq⟩,
            read_from_fifo_eq L s (fifoSize s) hA]
        dsimp only
        rw [hc, hsize, List.take_length, List.drop_length]
        refine ⟨s.next_pts, [], [],
          { s with audio_fifo := some ([] : List Sample),
                   next_pts := s.next_pts + av_rescale_q (q.length : Int)
                     ⟨1, L.sample_rate⟩ L.time_base },
          ?_, rfl, rfl, hcur, by
            have hx : List.drop nb q = [] := List.drop_eq_nil_of_le (by omega)
            simp [upData, hx]⟩
        rw [List.take_of_length_le (show q.length ≤ nb by omega)]
    | cons r rest ih =>
      intro fuel q s hfuel hfo hfifo hcur
      obtain ⟨fl, rfl⟩ : ∃ fl, fuel = fl + 1 := ⟨fuel - 1, by omega⟩
      cases r with
      | err e => exact absurd hfo (by simp [framesOnly])
      | noDeliver => exact absurd hfo (by simp [framesOnly])
      | frame f =>
        have hsize : fifoSize s = q.length := by simp [fifoSize, hfifo]
        have hc : fifoContents s = q := by simp [fifoContents, hfifo]
        have hfo' : framesOnly rest = true := by simpa [framesOnly] using hfo
        have hfuel' : rest.length < fl := by
          simp only [List.length_cons] at hfuel; omega
        have hpend : q ++ upData (UpstreamResp.frame f :: rest)
            = (q ++ f.data) ++ upData rest := by
          simp [upData, List.append_assoc]
        by_cases hfull : nb ≤ q.length
        · constructor
          · intro hp
            exfalso
            have : q = [] := by
              rcases List.append_eq_nil.mp hp with ⟨hq, -⟩
              exact hq
            rw [this] at hfull
            simp at hfull
            omega
          · intro hq
            rw [read_samples_loop, if_pos (by rw [hsize]; exact hfull),
                read_from_fifo_eq L s nb hA]
            dsimp only
            rw [hc]
            refine ⟨s.next_pts, UpstreamResp.frame f :: rest, q.drop nb,
              { s with audio_fifo := some (q.drop nb),
                       next_pts := s.next_pts + av_rescale_q (nb : Int)
                         ⟨1, L.sample_rate⟩ L.time_base },
              ?_, hfo, rfl, hcur, ?_⟩
            · rw [List.take_append_eq_append_take,
                  Nat.sub_eq_zero_of_le hfull, List.take_zero, List.append_nil]
            · rw [List.drop_append_eq_append_drop,
                  Nat.sub_eq_zero_of_le hfull, List.drop_zero]
        · rw [read_samples_loop, if_neg (by rw [hsize]; exact hfull),
              av_buffersink_read_frame s f rest hcur]
          dsimp only
          rw [if_neg (by rintro ⟨h0, -⟩; exact absurd h0 (by decide)),
              if_neg (by decide : ¬ (0 : Int) < 0)]
          have hw := fifo_write_fields L
            { s with cur_buf := none, link_cur_buf := none } f
          have hq' : (fifo_write (refill_resync L
              { s with cur_buf := none, link_cur_buf := none } f) f.data).audio_fifo
              = some (q ++ f.data) := by
            rw [hw.1]
            simp [fifoContents, hfifo]
          have hc' : (fifo_write (refill_resync L
              { s with cur_buf := none, link_cur_buf := none } f) f.data).cur_buf
              = none := hw.2
          have ihx := ih fl (q ++ f.data) _ hfuel' hfo' hq' hc'
          rw [hpend]
          exact ihx

/-- C7: a `read_samples` call that fails with a status other than
end-of-stream or invalid-state leaves the samples that were queued
before the call at the front of the queue, unchanged and in order, so
an identical retry observes the same queued data. -/
theorem read_samples_failure_preserves_queue (L : Link) (N : Nat)
    (up : List UpstreamResp) (s : SinkState) (ret : Int) (ob : Option Frame)
    (up1 : List UpstreamResp) (s1 : SinkState)
    (h : av_buffersink_read_samples L N up s = some (ret, ob, up1, s1))
    (hneg : ret < 0) (hEOF : ret ≠ AVERROR_EOF) (hEINVAL : ret ≠ AVERROR_EINVAL) :
    ∃ t, fifoContents s1 = fifoContents s ++ t := by
  rcases hfa : s.audio_fifo with _ | q
  · simp only [av_buffersink_read_samples, hfa] at h
    cases hA : L.alloc_ok with
    | true =>
      rw [hA, if_pos rfl] at h
      obtain ⟨t, ht⟩ :=
        read_samples_loop_preserves_queue L N (up.length + 1) up
          { s with audio_fifo := some ([] : List Sample) } ret ob up1 s1 h hneg
      refine ⟨t, ?_⟩
      rw [ht]
      simp [fifoContents, hfa]
    | false =>
      rw [hA] at h
      simp only [Bool.false_eq_true, if_false, Option.some.injEq,
        Prod.mk.injEq] at h
      obtain ⟨-, -, -, rfl⟩ := h
      exact ⟨[], by rw [List.append_nil]⟩
  · simp only [av_buffersink_read_samples, hfa] at h
    exact read_samples_loop_preserves_queue L N (up.length + 1) up s
      ret ob up1 s1 h hneg

theorem read_samples_failure_preserves_queue_witness :
    ∃ t, fifoContents ⟨none, none, some [1, 2], 7⟩
      = fifoContents ⟨none, none, some [1, 2], 7⟩ ++ t :=
  read_samples_failure_preserves_queue ⟨10, ⟨1, 10⟩, true⟩ 5
    [UpstreamResp.err (-5)] ⟨none, none, some [1, 2], 7⟩ (-5) none []
    ⟨none, none, some [1, 2], 7⟩ rfl (by decide) (by decide) (by decide)

theorem framesOnly_map (inputs : List Frame) :
    framesOnly (inputs.map UpstreamResp.frame) = true := by
  induction inputs with
  | nil => rfl
  | cons f rest ih => simpa [framesOnly] using ih

theorem upData_map (inputs : List Frame) :
    upData (inputs.map UpstreamResp.frame) = (inputs.map Frame.data).flatten := by
  induction inputs with
  | nil => rfl
  | cons f rest ih => simp [upData, ih]

/-- Repeatedly calling `read_samples` on a frames-only schedule until
failure yields exactly the `N`-chunking of all pending samples and then
the end-of-stream status, provided the call budget `fuel` covers the
chunk count. -/
theorem drainAll_frames (L : Link) (N : Nat) (hA : L.alloc_ok = true) (hN : 0 < N) :
    ∀ (fuel : Nat) (up : List UpstreamResp) (q : List Sample) (s : SinkState),
      framesOnly up = true → fifoContents s = q → s.cur_buf = none →
      (q ++ upData up).length + N ≤ fuel * N →
      (drainAll L N fuel up s).1.map Frame.data = chunkList N (q ++ upData up) ∧
      (drainAll L N fuel up s).2 = AVERROR_EOF := by
  intro fuel
  induction fuel with
  | zero =>
    intro up q s hfo hfc hcur hbound
    exfalso
    simp only [Nat.zero_mul, Nat.le_zero] at hbound
    omega
  | succ fuel ih =>
    intro up q s hfo hfc hcur hbound
    have hcall := read_samples_start_loop L N up s hA
    rw [hfc] at hcall
    have hloop := read_samples_loop_frames L N hA hN up (up.length + 1) q
      { s with audio_fifo := some q } (by omega) hfo rfl hcur
    by_cases hp : q ++ upData up = []
    · obtain ⟨s1, h1, -, -⟩ := hloop.1 hp
      rw [drainAll, hcall, h1]
      dsimp only
      rw [if_pos (by decide : AVERROR_EOF < (0 : Int))]
      exact ⟨by rw [hp, chunkList_nil]; rfl, rfl⟩
    · obtain ⟨p, up1, q1, s1, h1, hfo1, hfifo1, hcur1, hpend⟩ := hloop.2 hp
      rw [drainAll, hcall, h1]
      dsimp only
      rw [if_neg (by decide : ¬ (0 : Int) < 0)]
      have hge1 : 0 < (q ++ upData up).length := List.length_pos.mpr hp
      have hbound' : (q1 ++ upData up1).length + N ≤ fuel * N := by
        rw [hpend, List.length_drop]
        have hmul : (fuel + 1) * N = fuel * N + N := by ring
        rw [hmul] at hbound
        rcases Nat.eq_zero_or_pos fuel with hf0 | hfpos
        · exfalso
          subst hf0
          simp only [Nat.zero_mul, Nat.zero_add] at hbound
          omega
        · have hNle : N ≤ fuel * N := Nat.le_mul_of_pos_left N hfpos
          omega
      have ihx := ih up1 q1 s1 hfo1 (by simp [fifoContents, hfifo1]) hcur1 hbound'
      refine ⟨?_, ihx.2⟩
      dsimp only [Option.toList]
      rw [List.singleton_append, List.map_cons, ihx.1, hpend,
          ← chunkList_cons N (q ++ upData up) (by omega) hp]

/-- C1: with input frames whose sample counts sum to `S` and a fixed
request size `N > 0`, repeated `read_samples(N)` calls return
`S / N` frames of exactly `N` samples, then one final frame of
`S % N` samples when `S % N ≠ 0` (and none otherwise), then
end-of-stream; the total sample payload is conserved in FIFO order. -/
theorem read_samples_exact_rechunking (L : Link) (N : Nat) (inputs : List Frame)
    (hN : 0 < N) (hA : L.alloc_ok = true) :
    let all := (inputs.map Frame.data).flatten
    let out := drainAll L N (all.length + 2) (inputs.map UpstreamResp.frame) initState
    (out.1.map Frame.data).flatten = all ∧
    out.2 = AVERROR_EOF ∧
    out.1.length = all.length / N + (if all.length % N = 0 then 0 else 1) ∧
    (∀ f ∈ out.1.take (all.length / N), f.data.length = N) ∧
    (all.length % N ≠ 0 →
      ∃ lf, out.1.getLast? = some lf ∧ lf.data.length = all.length % N) := by
  intro all out
  have hNne : N ≠ 0 := by omega
  have hallEq : (inputs.map Frame.data).flatten = all := rfl
  have hbound : (([] : List Sample)
      ++ upData (inputs.map UpstreamResp.frame)).length + N
      ≤ (all.length + 2) * N := by
    rw [List.nil_append, upData_map, hallEq]
    have hmul : (all.length + 2) * N = all.length * N + 2 * N := by ring
    rw [hmul]
    have h1 : all.length ≤ all.length * N := Nat.le_mul_of_pos_right _ hN
    omega
  have hmain := drainAll_frames L N hA hN (all.length + 2)
    (inputs.map UpstreamResp.frame) [] initState (framesOnly_map inputs)
    rfl rfl hbound
  rw [List.nil_append, upData_map] at hmain
  refine ⟨?_, hmain.2, ?_, ?_, ?_⟩
  · rw [hmain.1, chunkList_flatten N hNne]
  · rw [← List.length_map out.1 Frame.data, hmain.1, chunkList_length N hNne]
  · intro f hf
    refine chunkList_full_sizes N hNne all f.data ?_
    rw [← hmain.1, ← List.map_take]
    exact List.mem_map_of_mem Frame.data hf
  · intro hmod
    have hall : all ≠ [] := by
      intro hc
      rw [hc] at hmod
      simp at hmod
    obtain ⟨c, hc1, hc2⟩ := chunkList_last N hNne all hall
    have hlg : (out.1.map Frame.data).getLast? = some c := by
      rw [hmain.1]; exact hc1
    rw [List.getLast?_map] at hlg
    rcases hout : out.1.getLast? with _ | lf
    · rw [hout] at hlg; simp at hlg
    · rw [hout, Option.map_some'] at hlg
      refine ⟨lf, rfl, ?_⟩
      rw [Option.some.injEq] at hlg
      rw [hlg, hc2, if_neg hmod]

theorem read_samples_exact_rechunking_witness :
    0 < 2 ∧
    (let all := (([⟨some 0, [1, 2, 3]⟩, ⟨none, [4, 5]⟩] : List Frame).map
        Frame.data).flatten
     let out := drainAll ⟨48000, ⟨1, 48000⟩, true⟩ 2 (all.length + 2)
        (([⟨some 0, [1, 2, 3]⟩, ⟨none, [4, 5]⟩] : List Frame).map
          UpstreamResp.frame) initState
     (out.1.map Frame.data).flatten = all ∧
     out.2 = AVERROR_EOF ∧
     out.1.length = all.length / 2 + (if all.length % 2 = 0 then 0 else 1) ∧
     (∀ f ∈ out.1.take (all.length / 2), f.data.length = 2) ∧
     (all.length % 2 ≠ 0 →
       ∃ lf, out.1.getLast? = some lf ∧ lf.data.length = all.length % 2)) :=
  ⟨by decide,
   read_samples_exact_rechunking ⟨48000, ⟨1, 48000⟩, true⟩ 2
     [⟨some 0, [1, 2, 3]⟩, ⟨none, [4, 5]⟩] (by decide) rfl⟩

/-- When the FIFO is already allocated the wrapper is just the loop. -/
theorem read_samples_eq_loop_of_some (L : Link) (nb : Nat) (up : List UpstreamResp)
    (s : SinkState) (q : List Sample) (hf : s.audio_fifo = some q) :
    av_buffersink_read_samples L nb up s
      = read_samples_loop L nb (up.length + 1) up s := by
  rcases s with ⟨cb, lcb, af, np⟩
  simp only at hf
  subst hf
  rfl

/-- With `time_base = 1/sample_rate` and a contiguously stamped
schedule aligned with the cursor (`t = next_pts +` queued count when
the queue is non-empty), the loop emits a frame stamped with the
effective cursor, advances the cursor by the emitted sample count, and
re-establishes the alignment unconditionally. -/
theorem read_samples_loop_stamped (r : Int) (hr : 0 < r) (nb : Nat) (hnb : 0 < nb) :
    ∀ (up : List UpstreamResp) (fuel : Nat) (q : List Sample) (s : SinkState)
      (t : Int),
      up.length < fuel → stampedFrom t up = true → s.audio_fifo = some q →
      s.cur_buf = none → (q ≠ [] → t = s.next_pts + q.length) →
      (q ++ upData up = [] →
        ∃ s1, read_samples_loop ⟨r, ⟨1, r⟩, true⟩ nb fuel up s
          = some (AVERROR_EOF, none, [], s1)) ∧
      (q ++ upData up ≠ [] →
        ∃ up1 q1 s1,
          read_samples_loop ⟨r, ⟨1, r⟩, true⟩ nb fuel up s
            = some (0, some { pts := some (if q = [] then t else s.next_pts),
                              data := (q ++ upData up).take nb }, up1, s1) ∧
          s1.audio_fifo = some q1 ∧ s1.cur_buf = none ∧
          stampedFrom (s1.next_pts + q1.length) up1 = true ∧
          s1.next_pts = (if q = [] then t else s.next_pts)
            + ((q ++ upData up).take nb).length) := by
  intro up
  induction up with
  | nil =>
    intro fuel q s t hfuel hst hfifo hcur hal
    obtain ⟨f, rfl⟩ : ∃ f, fuel = f + 1 := ⟨fuel - 1, by omega⟩
    have hsize : fifoSize s = q.length := by simp [fifoSize, hfifo]
    have hc : fifoContents s = q := by simp [fifoContents, hfifo]
    simp only [upData, List.append_nil]
    constructor
    · rintro rfl
      rw [read_samples_loop, if_neg (by rw [hsize]; simpa using hnb.ne'),
          av_buffersink_read_nil s]
      dsimp only
      rw [if_neg (by rintro ⟨-, hx⟩; exact hx (by rw [hsize]; rfl)),
          if_pos (by decide : AVERROR_EOF < (0 : Int))]
      exact ⟨s, rfl⟩
    · intro hq
      rw [if_neg hq]
      by_cases hfull : nb ≤ q.length
      · rw [read_samples_loop, if_pos (by rw [hsize]; exact hfull),
            read_from_fifo_eq _ s nb rfl]
        dsimp only
        rw [hc]
        refine ⟨[], q.drop nb,
          { s with audio_fifo := some (q.drop nb),
                   next_pts := s.next_pts + av_rescale_q (nb : Int) ⟨1, r⟩ ⟨1, r⟩ },
          rfl, rfl, hcur, rfl, ?_⟩
        dsimp only
        rw [av_rescale_q_self_base (nb : Int) r (Int.natCast_nonneg nb) hr,
            List.length_take]
        congr 1
        omega
      · rw [read_samples_loop, if_neg (by rw [hsize]; exact hfull),
            av_buffersink_read_nil s]
        dsimp only
        rw [if_pos ⟨rfl, by rw [hsize]; simpa [List.length_eq_zero] using hq⟩,
            read_from_fifo_eq _ s (fifoSize s) rfl]
        dsimp only
        rw [hc, hsize, List.take_length, List.drop_length,
            List.take_of_length_le (show q.length ≤ nb by omega)]
        refine ⟨[], [],
          { s with audio_fifo := some ([] : List Sample),
                   next_pts := s.next_pts
                     + av_rescale_q (q.length : Int) ⟨1, r⟩ ⟨1, r⟩ },
          rfl, rfl, hcur, rfl, ?_⟩
        dsimp only
        rw [av_rescale_q_self_base (q.length : Int) r (Int.natCast_nonneg _) hr]
  | cons resp rest ih =>
    intro fuel q s t hfuel hst hfifo hcur hal
    obtain ⟨fl, rfl⟩ : ∃ fl, fuel = fl + 1 := ⟨fuel - 1, by omega⟩
    cases resp with
    | err e => exact absurd hst (by simp [stampedFrom])
    | noDeliver => exact absurd hst (by simp [stampedFrom])
    | frame f =>
      have hsize : fifoSize s = q.length := by simp [fifoSize, hfifo]
      have hc : fifoContents s = q := by simp [fifoContents, hfifo]
      have hst2 := hst
      simp only [stampedFrom, Bool.and_eq_true, beq_iff_eq] at hst2
      obtain ⟨hf1, hst'⟩ := hst2
      have hfuel' : rest.length < fl := by
        simp only [List.length_cons] at hfuel; omega
      have hpend : q ++ upData (UpstreamResp.frame f :: rest)
          = (q ++ f.data) ++ upData rest := by
        simp [upData, List.append_assoc]
      by_cases hfull : nb ≤ q.length
      · have hq : q ≠ [] := by
          intro hc0; rw [hc0] at hfull; simp at hfull; omega
        have halign := hal hq
        constructor
        · intro hp
          exfalso
          rcases List.append_eq_nil.mp hp with ⟨hq0, -⟩
          exact hq hq0
        · intro hpne
          rw [if_neg hq]
          rw [read_samples_loop, if_pos (by rw [hsize]; exact hfull),
              read_from_fifo_eq _ s nb rfl]
          dsimp only
          rw [hc]
          refine ⟨UpstreamResp.frame f :: rest, q.drop nb,
            { s with audio_fifo := some (q.drop nb),
                     next_pts := s.next_pts
                       + av_rescale_q (nb : Int) ⟨1, r⟩ ⟨1, r⟩ },
            ?_, rfl, hcur, ?_, ?_⟩
          · rw [List.take_append_eq_append_take,
                Nat.sub_eq_zero_of_le hfull, List.take_zero, List.append_nil]
          · dsimp only
            have hX : s.next_pts + av_rescale_q (nb : Int) ⟨1, r⟩ ⟨1, r⟩
                + ((q.drop nb).length : Int) = t := by
              rw [av_rescale_q_self_base (nb : Int) r (Int.natCast_nonneg nb) hr,
                  List.length_drop, halign]
              omega
            rw [hX]
            exact hst
          · dsimp only
            rw [av_rescale_q_self_base (nb : Int) r (Int.natCast_nonneg nb) hr,
                List.take_append_eq_append_take, Nat.sub_eq_zero_of_le hfull,
                List.take_zero, List.append_nil, List.length_take]
            congr 1
            omega
      · rw [read_samples_loop, if_neg (by rw [hsize]; exact hfull),
            av_buffersink_read_frame s f rest hcur]
        dsimp only
        rw [if_neg (by rintro ⟨h0, -⟩; exact absurd h0 (by decide)),
            if_neg (by decide : ¬ (0 : Int) < 0)]
        have hw := fifo_write_fields ⟨r, ⟨1, r⟩, true⟩
          { s with cur_buf := none, link_cur_buf := none } f
        have hq' : (fifo_write (refill_resync ⟨r, ⟨1, r⟩, true⟩
            { s with cur_buf := none, link_cur_buf := none } f) f.data).audio_fifo
            = some (q ++ f.data) := by
          rw [hw.1]
          simp [fifoContents, hfifo]
        have hc' : (fifo_write (refill_resync ⟨r, ⟨1, r⟩, true⟩
            { s with cur_buf := none, link_cur_buf := none } f) f.data).cur_buf
            = none := hw.2
        have hs3next : (fifo_write (refill_resync ⟨r, ⟨1, r⟩, true⟩
            { s with cur_buf := none, link_cur_buf := none } f) f.data).next_pts
            = t - (q.length : Int) := by
          simp only [fifo_write, refill_resync, hf1, fifoSize, hfifo,
            Option.getD_some]
          rw [av_rescale_q_self_base (q.length : Int) r
            (Int.natCast_nonneg _) hr]
        have halign' : q ++ f.data ≠ [] →
            t + (f.data.length : Int)
              = (fifo_write (refill_resync ⟨r, ⟨1, r⟩, true⟩
                  { s with cur_buf := none, link_cur_buf := none } f)
                  f.data).next_pts + ((q ++ f.data).length : Int) := by
          intro hne
          rw [hs3next, List.length_append]
          push_cast
          ring
        have ihx := ih fl (q ++ f.data) _ (t + (f.data.length : Int))
          hfuel' hst' hq' hc' halign'
        have hstart : (if q ++ f.data = [] then t + (f.data.length : Int)
            else (fifo_write (refill_resync ⟨r, ⟨1, r⟩, true⟩
              { s with cur_buf := none, link_cur_buf := none } f)
              f.data).next_pts)
            = (if q = [] then t else s.next_pts) := by
          by_cases hq0 : q ++ f.data = []
          · rcases List.append_eq_nil.mp hq0 with ⟨hqa, hqb⟩
            rw [if_pos hq0, if_pos hqa, hqb]
            simp
          · rw [if_neg hq0, hs3next]
            by_cases hqe : q = []
            · rw [if_pos hqe, hqe]
              simp
            · rw [if_neg hqe]
              have := hal hqe
              omega
        rw [hpend, ← hstart]
        exact ihx

/-- Chaining `read_samples` calls over contiguously stamped input
yields outputs whose timestamps form an exact chain: each frame is
stamped with the previous frame's timestamp plus its sample count. -/
theorem drainAll_stamped (r : Int) (hr : 0 < r) (N : Nat) (hN : 0 < N) :
    ∀ (fuel : Nat) (up : List UpstreamResp) (q : List Sample) (s : SinkState)
      (t : Int),
      stampedFrom t up = true → fifoContents s = q → s.cur_buf = none →
      (q ≠ [] → t = s.next_pts + q.length) →
      ptsChain (if q = [] then t else s.next_pts)
        (drainAll ⟨r, ⟨1, r⟩, true⟩ N fuel up s).1 = true := by
  intro fuel
  induction fuel with
  | zero => intro up q s t hst hfc hcur hal; rfl
  | succ fuel ih =>
    intro up q s t hst hfc hcur hal
    rw [drainAll, read_samples_start_loop _ N up s rfl, hfc]
    have hloop := read_samples_loop_stamped r hr N hN up (up.length + 1) q
      { s with audio_fifo := some q } t (by omega) hst rfl hcur hal
    by_cases hp : q ++ upData up = []
    · obtain ⟨s1, h1⟩ := hloop.1 hp
      rw [h1]
      dsimp only
      rw [if_pos (by decide : AVERROR_EOF < (0 : Int))]
      rfl
    · obtain ⟨up1, q1, s1, h1, hfifo1, hcur1, hst1, hnext1⟩ := hloop.2 hp
      rw [h1]
      dsimp only
      rw [if_neg (by decide : ¬ (0 : Int) < 0)]
      dsimp only [Option.toList]
      rw [List.singleton_append]
      simp only [ptsChain, Bool.and_eq_true, beq_iff_eq]
      refine ⟨trivial, ?_⟩
      have ihx := ih up1 q1 s1 (s1.next_pts + q1.length) hst1
        (by simp [fifoContents, hfifo1]) hcur1 (fun _ => rfl)
      have hite : (if q1 = [] then s1.next_pts + (q1.length : Int)
          else s1.next_pts) = s1.next_pts := by
        by_cases hq1 : q1 = [] <;> simp [hq1]
      rw [hite, hnext1] at ihx
      exact ihx

/-- From a timestamp chain: consecutive output frames satisfy the
successor rule and are non-decreasing. -/
theorem ptsChain_pairs :
    ∀ (l : List Frame) (t : Int), ptsChain t l = true →
      ∀ i (h : i + 1 < l.length),
        ∃ a b, (l.get ⟨i, by omega⟩).pts = some a ∧
          (l.get ⟨i + 1, h⟩).pts = some b ∧
          b = a + (l.get ⟨i, by omega⟩).data.length ∧ a ≤ b := by
  intro l
  induction l with
  | nil => intro t ht i h; simp at h
  | cons f rest ih =>
    intro t ht i h
    simp only [ptsChain, Bool.and_eq_true, beq_iff_eq] at ht
    cases i with
    | zero =>
      cases rest with
      | nil => simp at h
      | cons g rest2 =>
        have h2 := ht.2
        simp only [ptsChain, Bool.and_eq_true, beq_iff_eq] at h2
        exact ⟨t, t + f.data.length, ht.1, h2.1, rfl, by
          have hx : (0 : Int) ≤ f.data.length := Int.natCast_nonneg _
          omega⟩
    | succ i =>
      have h' : i + 1 < rest.length := by
        simp only [List.length_cons] at h; omega
      obtain ⟨a, b, h1, h2, h3, h4⟩ := ih (t + f.data.length) ht.2 i h'
      exact ⟨a, b, h1, h2, h3, h4⟩

/-- C8 fails as stated: input timestamps that are defined and
non-decreasing but not contiguous make the resynchronisation rule move
an output timestamp backwards.  Two 10-sample frames both stamped 100
(rate 1, time base 1/1), requests of 5 samples: the outputs are stamped
100, 105, 100, 105 — neither non-decreasing nor obeying the
previous-plus-duration rule. -/
theorem read_samples_nondec_pts_counterexample :
    nonDecPts [⟨some 100, List.replicate 10 1⟩, ⟨some 100, List.replicate 10 2⟩]
      = true ∧
    ((drainAll ⟨1, ⟨1, 1⟩, true⟩ 5 6
        (([⟨some 100, List.replicate 10 1⟩,
           ⟨some 100, List.replicate 10 2⟩] : List Frame).map
          UpstreamResp.frame) initState).1.map Frame.pts)
      = [some 100, some 105, some 100, some 105] ∧
    nonDecPts (drainAll ⟨1, ⟨1, 1⟩, true⟩ 5 6
        (([⟨some 100, List.replicate 10 1⟩,
           ⟨some 100, List.replicate 10 2⟩] : List Frame).map
          UpstreamResp.frame) initState).1 = false := by
  decide

/-- C8 (amended): for input frames with defined, contiguous timestamps
(each frame stamped with the previous frame's timestamp plus the
previous frame's sample count) on a link whose time base is
`1/sample_rate`, every output frame's timestamp equals the previous
output frame's timestamp plus the time-equivalent (rescaled into the
link time base) of the previous frame's sample count, and output
timestamps are non-decreasing. -/
theorem read_samples_contiguous_pts (r t0 : Int) (N fuel : Nat)
    (inputs : List Frame) (hr : 0 < r) (hN : 0 < N)
    (hst : stampedFrom t0 (inputs.map UpstreamResp.frame) = true) :
    let out := drainAll ⟨r, ⟨1, r⟩, true⟩ N fuel
      (inputs.map UpstreamResp.frame) initState
    ptsChain t0 out.1 = true ∧
    ∀ i (h : i + 1 < out.1.length),
      ∃ a b, (out.1.get ⟨i, by omega⟩).pts = some a ∧
        (out.1.get ⟨i + 1, h⟩).pts = some b ∧
        b = a + av_rescale_q ((out.1.get ⟨i, by omega⟩).data.length : Int)
          ⟨1, r⟩ ⟨1, r⟩ ∧ a ≤ b := by
  intro out
  have hchain : ptsChain t0 out.1 = true := by
    have h0 := drainAll_stamped r hr N hN fuel (inputs.map UpstreamResp.frame)
      [] initState t0 hst rfl rfl (fun hc => absurd rfl hc)
    simpa using h0
  refine ⟨hchain, ?_⟩
  intro i h
  obtain ⟨a, b, h1, h2, h3, h4⟩ := ptsChain_pairs out.1 t0 hchain i h
  refine ⟨a, b, h1, h2, ?_, h4⟩
  rw [av_rescale_q_self_base _ r (Int.natCast_nonneg _) hr]
  exact h3

theorem read_samples_contiguous_pts_witness :
    (0 : Int) < 1 ∧ 0 < 5 ∧
    stampedFrom 100
      (([⟨some 100, List.replicate 10 1⟩,
         ⟨some 110, List.replicate 10 2⟩] : List Frame).map
        UpstreamResp.frame) = true ∧
    (let out := drainAll ⟨1, ⟨1, 1⟩, true⟩ 5 6
        (([⟨some 100, List.replicate 10 1⟩,
           ⟨some 110, List.replicate 10 2⟩] : List Frame).map
          UpstreamResp.frame) initState
     ptsChain 100 out.1 = true ∧
     ∀ i (h : i + 1 < out.1.length),
       ∃ a b, (out.1.get ⟨i, by omega⟩).pts = some a ∧
         (out.1.get ⟨i + 1, h⟩).pts = some b ∧
         b = a + av_rescale_q ((out.1.get ⟨i, by omega⟩).data.length : Int)
           ⟨1, 1⟩ ⟨1, 1⟩ ∧ a ≤ b) :=
  ⟨by decide, by decide, by decide,
   read_samples_contiguous_pts 1 100 5 6
     [⟨some 100, List.replicate 10 1⟩, ⟨some 110, List.replicate 10 2⟩]
     (by decide) (by decide) (by decide)⟩

theorem read_from_fifo_pts_advance_witness :
    ∃ f s1, read_from_fifo ⟨48000, ⟨1, 48000⟩, true⟩
        { initState with audio_fifo := some [1, 2, 3], next_pts := 11 } 2
        = (0, some f, s1) ∧
      f.pts = some 11 ∧
      s1.next_pts = 11 + av_rescale_q 2 ⟨1, 48000⟩ ⟨1, 48000⟩ ∧
      |2 * ((2 : Int) * 1 * 48000) - 2 * ((48000 : Int) * 1) * (s1.next_pts - 11)|
        ≤ (48000 : Int) * 1 :=
  read_from_fifo_pts_advance ⟨48000, ⟨1, 48000⟩, true⟩
    { initState with audio_fifo := some [1, 2, 3], next_pts := 11 } 2
    rfl (by decide) (by decide) (by decide)

end BufferSink
